import Mathlib

/-!
Verification of the phpx runner against its specification.

The Go sources are shallowly embedded: pure string manipulation is modelled
on `List Char` (Go strings are byte slices; all inputs of interest here are
ASCII, where the two views agree), filesystem and process effects are
abstracted into explicit parameters, and external libraries (semver
constraint checking, TOML decoding, SHA-256) appear as function parameters.
-/

namespace Phpx

/-! ## Basic string helpers (models of Go `strings` functions) -/

/-- Model of `strings.HasPrefix`. -/
def strStartsWith (s pre : String) : Bool := pre.data.isPrefixOf s.data

/-- Model of `strings.HasSuffix`. -/
def strEndsWith (s suf : String) : Bool := suf.data.isSuffixOf s.data

/-- Model of `strings.ToLower` (ASCII range; hostnames and package names
are ASCII). -/
def toLowerStr (s : String) : String := ⟨s.data.map Char.toLower⟩

/-- Model of `strings.TrimSpace`. -/
def trimSpaceStr (s : String) : String :=
  ⟨((s.data.dropWhile Char.isWhitespace).reverse.dropWhile Char.isWhitespace).reverse⟩

/-- Split a character list at every occurrence of the separator character;
models the element decomposition performed by `strings.Split` with a
one-character separator, and the element scanning of Go's `path/filepath`
lexical routines. -/
def splitChar (sep : Char) : List Char → List (List Char)
  | [] => [[]]
  | c :: rest =>
    if c = sep then [] :: splitChar sep rest
    else
      match splitChar sep rest with
      | [] => [[c]]
      | g :: gs => (c :: g) :: gs

/-- Join segments with a separator list; models `strings.Join`. -/
def joinWith (sep : List Char) : List (List Char) → List Char
  | [] => []
  | [g] => g
  | g :: h :: gs => g ++ sep ++ joinWith sep (h :: gs)

/-- Join path segments with `/`; the inverse of `splitChar '/'`. -/
def joinSegs (gs : List (List Char)) : List Char := joinWith ['/'] gs

/-! ## Model of Go `path/filepath` lexical functions (Unix rules)

`filepath.Clean` processes the path elementwise: empty and `.` elements
are dropped, and `..` pops the previous element unless the path is rooted
and empty so far (dropped) or unrooted with nothing poppable (kept).
`resolveDots` is that elementwise `..` resolution with an accumulator kept
in reverse order. -/

def resolveDots (rooted : Bool) : List (List Char) → List (List Char) → List (List Char)
  | acc, [] => acc.reverse
  | [], p :: ps =>
    if p = ['.', '.'] then
      (if rooted then resolveDots rooted [] ps else resolveDots rooted [p] ps)
    else resolveDots rooted [p] ps
  | q :: acc', p :: ps =>
    if p = ['.', '.'] then
      (if q = ['.', '.'] then resolveDots rooted (p :: q :: acc') ps
       else resolveDots rooted acc' ps)
    else resolveDots rooted (p :: q :: acc') ps

/-- The non-empty, non-`.` elements of a path. -/
def segsOf (cs : List Char) : List (List Char) :=
  (splitChar '/' cs).filter (fun g => decide (g ≠ [] ∧ g ≠ ['.']))

/-- A path element emitted by `Clean`: non-empty, not a dot element, and
separator-free. -/
def goodSeg (g : List Char) : Prop :=
  g ≠ [] ∧ g ≠ ['.'] ∧ g ≠ ['.', '.'] ∧ '/' ∉ g

/-- Model of `filepath.Clean` on Unix, at the character-list level. -/
def cleanL (cs : List Char) : List Char :=
  if cs = [] then ['.']
  else if cs.head? = some '/' then
    (if joinSegs (resolveDots true [] (segsOf cs)) = [] then ['/']
     else '/' :: joinSegs (resolveDots true [] (segsOf cs)))
  else
    (if joinSegs (resolveDots false [] (segsOf cs)) = [] then ['.']
     else joinSegs (resolveDots false [] (segsOf cs)))

/-- Model of `filepath.Clean`. -/
def clean (p : String) : String := ⟨cleanL p.data⟩

/-- Model of `filepath.IsAbs` on Unix (`strings.HasPrefix(path, "/")`). -/
def isAbs (p : String) : Bool := strStartsWith p "/"

/-- Model of the two-argument `filepath.Join`: skip empty elements, join
the rest with `/`, and `Clean` the result. -/
def joinPath (a b : String) : String :=
  if a = "" then (if b = "" then "" else clean b) else clean (a ++ "/" ++ b)

/-- Model of `filepath.Dir`: everything up to and including the final
separator, cleaned (`Clean("")` is `"."` when there is no separator). -/
def dirPath (p : String) : String :=
  clean ⟨(p.data.reverse.dropWhile (fun c => c != '/')).reverse⟩

/-- The element lists compared by `filepath.Rel`'s positioning loop over
cleaned paths: the empty cleaned base behaves as exhausted immediately and
the root `/` contributes a single empty element. -/
def relComps (p : String) : List (List Char) :=
  if p = "" then [] else if p = "/" then [[]] else splitChar '/' p.data

/-- Strip the common element prefix, as `filepath.Rel`'s loop does. -/
def dropCommon : List (List Char) → List (List Char) → List (List Char) × List (List Char)
  | a :: as, b :: bs => if a = b then dropCommon as bs else (a :: as, b :: bs)
  | as, bs => (as, bs)

/-- The tail of `filepath.Rel` after the common prefix is removed: a `..`
base element is an error; leftover base elements each become `..`,
followed by the leftover target elements. -/
def relFrom (bcs tcs : List (List Char)) : Option String :=
  if (dropCommon bcs tcs).1.head? = some ['.', '.'] then none
  else if (dropCommon bcs tcs).1 = [] then some ⟨joinSegs (dropCommon bcs tcs).2⟩
  else
    some ⟨joinSegs (List.replicate (dropCommon bcs tcs).1.length ['.', '.']
      ++ (dropCommon bcs tcs).2)⟩

/-- The cleaned base with `Rel`'s replacement of `.` by the empty path. -/
def relBase (basepath : String) : String :=
  if clean basepath = "." then "" else clean basepath

/-- Model of `filepath.Rel` on Unix (`none` is Go's error return). -/
def rel (basepath targpath : String) : Option String :=
  if clean targpath = clean basepath then some "."
  else if (isAbs (relBase basepath)) ≠ (isAbs (clean targpath)) then none
  else relFrom (relComps (relBase basepath)) (relComps (clean targpath))

/-! ## php.downloader: path-traversal-safe extraction -/

/-- Model of `isPathWithinDir` (src/internal/php/downloader.go): the
relative path from the base to the target must exist, not start with
`..`, and not be absolute. -/
def isPathWithinDir (target baseDir : String) : Bool :=
  match rel baseDir target with
  | none => false
  | some r => !(strStartsWith r "..") && !(isAbs r)

inductive TarType
  | dir
  | reg
  | symlink
  | other

structure TarHeader where
  name : String
  typeflag : TarType
  linkname : String

/-- Model of the loop body of `extractTarGz`: each header's write target
is `Join(destDir, header.Name)`, checked with `isPathWithinDir` before any
write; a symlink's resolved target `Join(Dir(target), header.Linkname)` is
checked as well. The first component collects the write targets actually
created (in order), the second is the error, if any, that stopped the
loop. -/
def extractEntries (destDir : String) : List TarHeader → List String × Option String
  | [] => ([], none)
  | h :: rest =>
    if isPathWithinDir (joinPath destDir h.name) destDir = false then
      ([], some ("invalid tar entry path: " ++ h.name))
    else
      match h.typeflag with
      | .dir =>
        let r := extractEntries destDir rest
        (joinPath destDir h.name :: r.1, r.2)
      | .reg =>
        let r := extractEntries destDir rest
        (joinPath destDir h.name :: r.1, r.2)
      | .symlink =>
        if isPathWithinDir (joinPath (dirPath (joinPath destDir h.name)) h.linkname) destDir
            = false then
          ([], some ("invalid symlink target: " ++ h.name ++ " -> " ++ h.linkname))
        else
          let r := extractEntries destDir rest
          (joinPath destDir h.name :: r.1, r.2)
      | .other => extractEntries destDir rest

/-- Model of `extractTarGz` over an already-decoded list of tar headers. -/
def extractTarGz (destDir : String) (entries : List TarHeader) : Except String (List String) :=
  match extractEntries destDir entries with
  | (ws, none) => Except.ok ws
  | (_, some e) => Except.error e

/-- A cleaned target is inside the directory: equal to it or strictly
below it. -/
def withinDir (target dest : String) : Bool :=
  (clean target == clean dest) || strStartsWith (clean target) (clean dest ++ "/")

/-- A cleaned target is strictly inside the directory (the spec's
`strictly inside D`): strictly below it, excluding the directory
itself. -/
def strictlyInsideDir (target dest : String) : Bool :=
  strStartsWith (clean target) (clean dest ++ "/")

/-! ## util: environment safelist filter (src/internal/util) -/

/-- Environment variable prefixes safe to pass through. -/
def SafeEnvPrefixes : List String := ["LC_", "XDG_"]

/-- Specific environment variables safe to pass through (the keys of the
Go `SafeEnvVars` map). -/
def SafeEnvVars : List String :=
  ["PATH", "HOME", "USER", "SHELL", "LANG", "TERM", "TZ", "TMPDIR", "TEMP", "TMP",
   "LOGNAME", "UID",
   "LANGUAGE", "LC_ALL", "LC_COLLATE", "LC_CTYPE", "LC_MESSAGES", "LC_MONETARY",
   "LC_NUMERIC", "LC_TIME",
   "COLORTERM", "COLUMNS", "LINES",
   "EDITOR", "VISUAL", "PAGER"]

/-- The variable name of a `KEY=VALUE` entry (everything before the first
`=`; the whole string when there is no `=`). -/
def envName (v : String) : String := ⟨v.data.takeWhile (fun c => c != '=')⟩

/-- Whether an entry contains `=`. -/
def hasEq (v : String) : Bool := v.data.contains '='

/-- Second loop of `FilterEnv`: append each explicit `KEY=VALUE` allow
entry whose name is not already present (checked against the growing
list, as the Go loop does). -/
def addExplicitEntries (filtered : List String) : List String → List String
  | [] => filtered
  | v :: rest =>
    if hasEq v && !(filtered.any (fun f => strStartsWith f (envName v ++ "="))) then
      addExplicitEntries (filtered ++ [v]) rest
    else addExplicitEntries filtered rest

/-- Model of `util.FilterEnv`, with the ambient `os.Environ()` made an
explicit parameter. -/
def FilterEnv (environ allow : List String) : List String :=
  addExplicitEntries
    (environ.filter (fun env =>
      hasEq env &&
        ((allow.map envName).contains (envName env) ||
          SafeEnvVars.contains (envName env) ||
          SafeEnvPrefixes.any (fun p => strStartsWith (envName env) p))))
    allow

/-! ## composer.installer: environment passed to `composer install` -/

/-- The child environment built by both `InstallDeps` and `InstallTool`
(src/internal/composer/installer.go):
`append(os.Environ(), "COMPOSER_HOME="+filepath.Join(destDir, ".composer"))`,
with `os.Environ()` an explicit parameter. -/
def installEnv (environ : List String) (destDir : String) : List String :=
  environ ++ ["COMPOSER_HOME=" ++ joinPath destDir ".composer"]

/-! ## proxy: domain filter and manager construction (src/internal/proxy) -/

structure DomainFilter where
  allowedDomains : List String
  wildcardDomains : List String
  allowAll : Bool

/-- Model of `NewDomainFilter`. -/
def NewDomainFilter : DomainFilter := ⟨[], [], false⟩

/-- Model of the `AllowAll` method. -/
def AllowAll (f : DomainFilter) : DomainFilter := { f with allowAll := true }

/-- Model of `AddAllowed`: lowercase and trim; `*.X` contributes the
suffix `.X` to the wildcard list, anything else joins the exact list. -/
def AddAllowed (f : DomainFilter) (domain : String) : DomainFilter :=
  let d := toLowerStr (trimSpaceStr domain)
  if d = "" then f
  else if strStartsWith d "*." then
    { f with wildcardDomains := f.wildcardDomains ++ [⟨d.data.drop 1⟩] }
  else { f with allowedDomains := f.allowedDomains ++ [d] }

/-- Strip the port: remove everything from the last `:` onward
(`strings.LastIndex(host, ":")`). -/
def stripPort (host : String) : String :=
  if host.data.contains ':' then
    ⟨((host.data.reverse.dropWhile (fun c => c != ':')).drop 1).reverse⟩
  else host

/-- Model of `DomainFilter.IsAllowed`: strip port, lowercase, then
allow-all, exact match, or wildcard-suffix match. -/
def IsAllowed (f : DomainFilter) (host : String) : Bool :=
  let h := toLowerStr (stripPort host)
  if f.allowAll then true
  else f.allowedDomains.any (fun a => h == a) || f.wildcardDomains.any (fun s => strEndsWith h s)

/-- The domain filter built by `proxy.NewManager`: allow-all when the
configured allowed-hosts list is empty, otherwise each host is added to a
deny-by-default filter. -/
def buildManagerFilter (allowedHosts : List String) : DomainFilter :=
  if allowedHosts = [] then AllowAll NewDomainFilter
  else allowedHosts.foldl AddAllowed NewDomainFilter

/-! ## composer.packagist: constraint normalisation -/

/-- Split at every `||` occurrence (leftmost-first, non-overlapping);
models `strings.Split(constraint, "||")`. -/
def splitPipes : List Char → List (List Char)
  | [] => [[]]
  | [c] => [[c]]
  | c :: d :: rest =>
    if c = '|' ∧ d = '|' then [] :: splitPipes rest
    else
      match splitPipes (d :: rest) with
      | [] => [[c]]
      | g :: gs => (c :: g) :: gs

/-- Replace each remaining single `|` with ` || `; models
`strings.ReplaceAll(part, "|", " || ")`. -/
def replacePipe : List Char → List Char
  | [] => []
  | c :: rest =>
    if c = '|' then ' ' :: '|' :: '|' :: ' ' :: replacePipe rest
    else c :: replacePipe rest

/-- Model of `composer.NormalizeConstraint`: split on `||`, replace the
remaining single pipes, and re-join with ` || `. -/
def NormalizeConstraint (s : String) : String :=
  ⟨joinWith [' ', '|', '|', ' '] ((splitPipes s.data).map replacePipe)⟩

/-! ## index and php.resolver: version selection -/

structure Index (α : Type) where
  CommonVersions : List α
  BulkVersions : List α
  CommonExtensions : List String
  BulkExtensions : List String

/-- Model of `Index.HasExtension`. -/
def HasExtension {α : Type} (idx : Index α) (ext tier : String) : Bool :=
  (if tier = "common" then idx.CommonExtensions else idx.BulkExtensions).contains ext

/-- The loop of `RequiredTier`, carrying the `needsBulk` flag. -/
def requiredTierLoop {α : Type} (idx : Index α) : List String → Bool → Except String String
  | [], needsBulk => Except.ok (if needsBulk then "bulk" else "common")
  | ext :: rest, needsBulk =>
    if HasExtension idx ext "common" then requiredTierLoop idx rest needsBulk
    else if HasExtension idx ext "bulk" then requiredTierLoop idx rest true
    else Except.error ("extension '" ++ ext ++ "' not available in static PHP builds")

/-- Model of `Index.RequiredTier`. -/
def RequiredTier {α : Type} (idx : Index α) (extensions : List String) : Except String String :=
  if extensions = [] then Except.ok "common" else requiredTierLoop idx extensions false

/-- Model of `index.LatestVersion`: the head of the descending list. -/
def LatestVersion {α : Type} (versions : List α) : Option α := versions.head?

/-- Model of `index.MatchingVersion`: normalise the constraint, parse it
(the semver library's `NewConstraint` is the `parse` parameter), and
return the first version of the list satisfying it. -/
def MatchingVersion {α : Type} (parse : String → Option (α → Bool))
    (versions : List α) (constraint : String) : Except String α :=
  match parse (NormalizeConstraint constraint) with
  | none => Except.error ("invalid constraint " ++ constraint)
  | some check =>
    match versions.find? check with
    | some v => Except.ok v
    | none => Except.error ("no PHP version satisfies '" ++ constraint ++ "'")

/-! ## cache: deterministic paths and the dependency hash -/

/-- Model of `cache.Dir` with the user home directory explicit. -/
def cacheDir (home : String) : String := joinPath home ".phpx"

/-- Model of `cache.PHPDir`. -/
def PHPDir (home : String) : String := joinPath (cacheDir home) "php"

/-- Model of `cache.PHPPath`. -/
def PHPPath (home version tier : String) : String :=
  joinPath (joinPath (PHPDir home) (version ++ "-" ++ tier)) (joinPath "bin" "php")

/-- Model of `cache.ToolsDir`. -/
def ToolsDir (home : String) : String := joinPath (cacheDir home) "tools"

/-- Replace every `/` with `-`; models
`strings.ReplaceAll(pkg, "/", "-")`. -/
def replaceSlashDash (p : List Char) : List Char :=
  p.map (fun c => if c = '/' then '-' else c)

/-- Model of `cache.ToolPath`. -/
def ToolPath (home pkg version : String) : String :=
  joinPath (ToolsDir home) ⟨replaceSlashDash pkg.data ++ '-' :: version.data⟩

/-- Byte-wise ascending sort; models `sort.Strings` (UTF-8 byte order
agrees with code-point order). -/
def sortStrings (l : List String) : List String :=
  l.mergeSort (fun a b => decide (a ≤ b))

/-- Join with newlines; models `strings.Join(l, "\n")`. -/
def joinLines (l : List String) : String := ⟨joinWith ['\n'] (l.map String.data)⟩

/-- Model of `cache.DepsHash` with the SHA-256 hex digest as an explicit
function parameter: lowercase, sort, newline-join, hash. -/
def DepsHash (sha256hex : String → String) (packages : List String) : String :=
  sha256hex (joinLines (sortStrings (packages.map toLowerStr)))

/-! ## php.resolver: Resolve -/

structure Resolution (α : Type) where
  version : α
  tier : String
  path : String
  cached : Bool

/-- Model of `php.Resolve`, with the version-to-string rendering, the
semver constraint parser, the home directory, and the cache-existence
probe as explicit parameters. -/
def Resolve {α : Type} (verStr : α → String) (parse : String → Option (α → Bool))
    (home : String) (existsFn : String → Bool)
    (idx : Index α) (constraint : String) (extensions : List String) :
    Except String (Resolution α) :=
  match RequiredTier idx extensions with
  | Except.error e => Except.error e
  | Except.ok tier =>
    match (if constraint = "" then
            match LatestVersion (if tier = "bulk" then idx.BulkVersions
                                 else idx.CommonVersions) with
            | none => Except.error "no PHP versions available"
            | some v => Except.ok v
          else
            MatchingVersion parse
              (if tier = "bulk" then idx.BulkVersions else idx.CommonVersions)
              constraint) with
    | Except.error e => Except.error e
    | Except.ok version =>
      Except.ok ⟨version, tier, PHPPath home (verStr version) tier,
        existsFn (PHPPath home (verStr version) tier)⟩

/-! ## metadata: inline manifest parser (the `// phpx` block) -/

structure Metadata where
  php : String
  packages : List String
  extensions : List String

/-- The zero value `&Metadata{}`. -/
def emptyMetadata : Metadata := ⟨"", [], []⟩

/-- Drop a trailing carriage return, as `bufio.ScanLines` does. -/
def dropCR (l : List Char) : List Char :=
  if l.getLast? = some '\r' then l.dropLast else l

/-- The lines the `bufio.Scanner` yields for the script content. -/
def linesOf (content : String) : List String :=
  (splitChar '\n' content.data).map (fun l => ⟨dropCR l⟩)

/-- Scan for the first line whose trimmed form is exactly `// phpx` and
return the lines after it. -/
def findAfterMarker : List String → Option (List String)
  | [] => none
  | l :: rest =>
    if trimSpaceStr l = "// phpx" then some rest else findAfterMarker rest

/-- Strip the `//` comment token and at most one following space
(`strings.TrimPrefix` twice). -/
def stripSlashes (l : String) : String :=
  let c1 := if strStartsWith l "//" then (⟨l.data.drop 2⟩ : String) else l
  if strStartsWith c1 " " then ⟨c1.data.drop 1⟩ else c1

/-- Collect consecutive comment lines after the marker and strip their
comment tokens. -/
def collectToml (ls : List String) : List String :=
  (ls.takeWhile (fun l => strStartsWith (trimSpaceStr l) "//")).map
    (fun l => stripSlashes (trimSpaceStr l))

/-- Model of `metadata.Parse`, with the TOML decoder
(`BurntSushi/toml.Decode`) as an explicit parameter. -/
def Parse (tomlDecode : String → Except String Metadata) (content : String) :
    Except String Metadata :=
  match findAfterMarker (linesOf content) with
  | none => Except.ok emptyMetadata
  | some rest =>
    if collectToml rest = [] then Except.ok emptyMetadata
    else tomlDecode (joinLines (collectToml rest))

/-! ## sandbox and cli: exit-code propagation -/

/-- Outcome of `cmd.Run()` as seen by `sandbox.BuildResult`: success,
an `*exec.ExitError` carrying the child's exit code, or another error. -/
inductive CmdOutcome
  | success
  | exited (code : Int)
  | failed (msg : String)

/-- Model of `sandbox.BuildResult` restricted to the exit-code logic: the
resulting `Result.ExitCode` and the error returned alongside it. A child
exit (`*exec.ExitError`) records the child's code and returns no error;
any other error is passed through with the zero result. -/
def BuildResult (err : CmdOutcome) : Int × Option String :=
  match err with
  | CmdOutcome.success => (0, none)
  | CmdOutcome.exited c => (c, none)
  | CmdOutcome.failed m => (0, some m)

/-- The exit code the caller of the phpx process observes, composing
`BuildResult`, `runScript` (src/internal/cli/run.go: `os.Exit(code)` on a
non-zero result, normal return otherwise) and `main`
(error from `cli.Execute` prints and exits 1). -/
def observedExitCode (err : CmdOutcome) : Int :=
  match BuildResult err with
  | (_, some _) => 1
  | (code, none) => code

/-! ## Theorems -/

/-! ### Lemmas about the path-element decomposition -/

/-- Unfolding `splitChar` at a separator head. -/
theorem splitChar_cons_sep (sep : Char) (rest : List Char) :
    splitChar sep (sep :: rest) = [] :: splitChar sep rest := by
  rw [splitChar, if_pos rfl]

/-- Unfolding `splitChar` at a non-separator head. -/
theorem splitChar_cons_ne (sep c : Char) (rest : List Char) (h : c ≠ sep) :
    splitChar sep (c :: rest) =
      match splitChar sep rest with
      | [] => [[c]]
      | g :: gs => (c :: g) :: gs := by
  rw [splitChar, if_neg h]

/-- The split of a list is never empty. -/
theorem splitChar_ne_nil (sep : Char) : ∀ cs, splitChar sep cs ≠ []
  | [] => by simp [splitChar]
  | c :: rest => by
    by_cases h : c = sep
    · rw [h, splitChar_cons_sep]; simp
    · rw [splitChar_cons_ne sep c rest h]
      cases hs : splitChar sep rest <;> simp

/-- Split segments never contain the separator. -/
theorem splitChar_no_sep (sep : Char) : ∀ cs, ∀ g ∈ splitChar sep cs, sep ∉ g
  | [] => by intro g hg; simp [splitChar] at hg; subst hg; simp
  | c :: rest => by
    intro g hg
    by_cases h : c = sep
    · rw [splitChar, if_pos h] at hg
      rcases List.mem_cons.mp hg with h1 | h2
      · subst h1; simp
      · exact splitChar_no_sep sep rest g h2
    · rw [splitChar_cons_ne sep c rest h] at hg
      cases hs : splitChar sep rest with
      | nil => exact absurd hs (splitChar_ne_nil sep rest)
      | cons g0 gs =>
        rw [hs] at hg
        rcases List.mem_cons.mp hg with h1 | h2
        · subst h1
          intro hm
          rcases List.mem_cons.mp hm with h3 | h4
          · exact h h3.symm
          · exact splitChar_no_sep sep rest g0 (hs ▸ List.mem_cons_self g0 gs) h4
        · exact splitChar_no_sep sep rest g (hs ▸ List.mem_cons_of_mem g0 h2)

/-- Joining undoes splitting. -/
theorem joinWith_splitChar (sep : Char) : ∀ cs, joinWith [sep] (splitChar sep cs) = cs
  | [] => rfl
  | c :: rest => by
    have ih := joinWith_splitChar sep rest
    by_cases h : c = sep
    · rw [h, splitChar_cons_sep]
      cases hs : splitChar sep rest with
      | nil => exact absurd hs (splitChar_ne_nil sep rest)
      | cons g gs =>
        rw [hs] at ih
        rw [joinWith]
        simp only [List.nil_append, List.singleton_append, List.cons.injEq, true_and]
        exact ih
    · rw [splitChar_cons_ne sep c rest h]
      cases hs : splitChar sep rest with
      | nil => exact absurd hs (splitChar_ne_nil sep rest)
      | cons g gs =>
        rw [hs] at ih
        cases gs with
        | nil =>
          simp only [joinWith] at ih ⊢
          rw [ih]
        | cons g1 gs1 =>
          rw [joinWith]
          rw [joinWith] at ih
          simp only [List.cons_append, List.cons.injEq, true_and]
          simpa using ih

/-- A separator-free list splits into itself. -/
theorem splitChar_single (sep : Char) : ∀ {g : List Char}, sep ∉ g → splitChar sep g = [g]
  | [], _ => rfl
  | c :: rest, h => by
    have hc : c ≠ sep := by simp_all [eq_comm]
    have hrest : sep ∉ rest := by simp_all
    rw [splitChar_cons_ne sep c rest hc, splitChar_single sep hrest]

/-- Splitting after a leading separator-free segment. -/
theorem splitChar_append_head (sep : Char) :
    ∀ {g : List Char}, sep ∉ g → ∀ ys, splitChar sep (g ++ sep :: ys) = g :: splitChar sep ys
  | [], _, ys => by simp [splitChar_cons_sep]
  | c :: g', h, ys => by
    have hc : c ≠ sep := by simp_all [eq_comm]
    have hg' : sep ∉ g' := by simp_all
    rw [List.cons_append, splitChar_cons_ne sep c _ hc, splitChar_append_head sep hg' ys]

/-- Splitting a list extended by a separator and a separator-free final
segment. -/
theorem splitChar_append_sep (sep : Char) {c : List Char} (hc : sep ∉ c) :
    ∀ xs, splitChar sep (xs ++ sep :: c) = splitChar sep xs ++ [c]
  | [] => by
    simp only [List.nil_append]
    rw [splitChar_cons_sep, splitChar_single sep hc]
    rfl
  | x :: xs => by
    by_cases h : x = sep
    · rw [h, List.cons_append, splitChar_cons_sep, splitChar_cons_sep,
        splitChar_append_sep sep hc xs]
      rfl
    · rw [List.cons_append, splitChar_cons_ne sep x _ h, splitChar_cons_ne sep x xs h,
        splitChar_append_sep sep hc xs]
      cases hs : splitChar sep xs with
      | nil => exact absurd hs (splitChar_ne_nil sep xs)
      | cons g gs => simp

/-- Splitting undoes joining, for non-empty separator-free segment
lists. -/
theorem splitChar_joinWith (sep : Char) :
    ∀ gs : List (List Char), gs ≠ [] → (∀ g ∈ gs, sep ∉ g) →
      splitChar sep (joinWith [sep] gs) = gs
  | [], hne, _ => absurd rfl hne
  | [g], _, h => by
    rw [joinWith]
    exact splitChar_single sep (h g (List.mem_singleton.mpr rfl))
  | g :: g1 :: gs, _, h => by
    rw [joinWith]
    have hg : sep ∉ g := h g (List.mem_cons_self _ _)
    have hrest : ∀ x ∈ g1 :: gs, sep ∉ x := fun x hx => h x (List.mem_cons_of_mem g hx)
    rw [show g ++ [sep] ++ joinWith [sep] (g1 :: gs) = g ++ sep :: joinWith [sep] (g1 :: gs) by
      simp]
    rw [splitChar_append_head sep hg, splitChar_joinWith sep (g1 :: gs) (by simp) hrest]

/-- Joining a non-empty-headed segment list is non-empty. -/
theorem joinSegs_ne_nil {g : List Char} (gs : List (List Char)) (hg : g ≠ []) :
    joinSegs (g :: gs) ≠ [] := by
  cases gs with
  | nil => exact hg
  | cons g1 gs1 =>
    rw [joinSegs, joinWith]
    simp [hg]

/-- The head character of a joined segment list is the head of its first
segment. -/
theorem joinSegs_head {g : List Char} (gs : List (List Char)) (hg : g ≠ []) :
    (joinSegs (g :: gs)).head? = g.head? := by
  cases gs with
  | nil => rfl
  | cons g1 gs1 =>
    rw [joinSegs, joinWith]
    cases g with
    | nil => exact absurd rfl hg
    | cons c cs => simp

/-- Joining distributes over append, inserting one separator. -/
theorem joinSegs_append :
    ∀ (as : List (List Char)) {bs : List (List Char)}, as ≠ [] → bs ≠ [] →
      joinSegs (as ++ bs) = joinSegs as ++ '/' :: joinSegs bs
  | [], _, hne, _ => absurd rfl hne
  | [a], bs, _, hb => by
    cases bs with
    | nil => exact absurd rfl hb
    | cons b bs1 =>
      show joinWith ['/'] (a :: b :: bs1) = joinWith ['/'] [a] ++ '/' :: joinWith ['/'] (b :: bs1)
      rw [joinWith]
      simp [joinWith, List.append_assoc]
  | a :: a1 :: as, bs, _, hb => by
    have ih := joinSegs_append (a1 :: as) (by simp) hb
    rw [List.cons_append] at ih
    show joinWith ['/'] ((a :: a1 :: as) ++ bs)
        = joinWith ['/'] (a :: a1 :: as) ++ '/' :: joinWith ['/'] bs
    rw [List.cons_append, List.cons_append, joinWith]
    rw [show joinWith ['/'] (a1 :: (as ++ bs)) = joinSegs (a1 :: (as ++ bs)) from rfl, ih]
    rw [joinWith]
    simp [joinSegs, List.append_assoc]

/-! ### Lemmas about dot-resolution and `clean` -/

/-- Elements surviving rooted dot-resolution are good path segments. -/
theorem resolveDots_good :
    ∀ (ps : List (List Char)) (acc : List (List Char)),
      (∀ g ∈ ps, g ≠ [] ∧ g ≠ ['.'] ∧ '/' ∉ g) →
      (∀ g ∈ acc, goodSeg g) →
      ∀ g ∈ resolveDots true acc ps, goodSeg g
  | [], acc => by
    intro _ hacc g hg
    rw [resolveDots] at hg
    exact hacc g (List.mem_reverse.mp hg)
  | p :: ps, acc => by
    intro hps hacc g hg
    have hps' : ∀ g ∈ ps, g ≠ [] ∧ g ≠ ['.'] ∧ '/' ∉ g :=
      fun x hx => hps x (List.mem_cons_of_mem p hx)
    by_cases hp : p = ['.', '.']
    · cases acc with
      | nil =>
        rw [resolveDots, if_pos hp, if_pos rfl] at hg
        exact resolveDots_good ps [] hps' (by simp) g hg
      | cons q acc' =>
        have hq : q ≠ ['.', '.'] := (hacc q (List.mem_cons_self q acc')).2.2.1
        rw [resolveDots, if_pos hp, if_neg hq] at hg
        exact resolveDots_good ps acc' hps'
          (fun x hx => hacc x (List.mem_cons_of_mem q hx)) g hg
    · have hpg : goodSeg p :=
        ⟨(hps p (List.mem_cons_self p ps)).1, (hps p (List.mem_cons_self p ps)).2.1, hp,
          (hps p (List.mem_cons_self p ps)).2.2⟩
      cases acc with
      | nil =>
        rw [resolveDots, if_neg hp] at hg
        refine resolveDots_good ps [p] hps' ?_ g hg
        intro x hx
        rw [List.mem_singleton.mp hx]
        exact hpg
      | cons q acc' =>
        rw [resolveDots, if_neg hp] at hg
        refine resolveDots_good ps (p :: q :: acc') hps' ?_ g hg
        intro x hx
        rcases List.mem_cons.mp hx with h1 | h2
        · exact h1 ▸ hpg
        · exact hacc x h2

/-- Elements surviving dot-resolution (rooted or not) are non-empty and
separator-free. -/
theorem resolveDots_ne (rooted : Bool) :
    ∀ (ps : List (List Char)) (acc : List (List Char)),
      (∀ g ∈ ps, g ≠ [] ∧ '/' ∉ g) →
      (∀ g ∈ acc, g ≠ [] ∧ '/' ∉ g) →
      ∀ g ∈ resolveDots rooted acc ps, g ≠ [] ∧ '/' ∉ g
  | [], acc => by
    intro _ hacc g hg
    rw [resolveDots] at hg
    exact hacc g (List.mem_reverse.mp hg)
  | p :: ps, acc => by
    intro hps hacc g hg
    have hps' : ∀ g ∈ ps, g ≠ [] ∧ '/' ∉ g :=
      fun x hx => hps x (List.mem_cons_of_mem p hx)
    have hdd : (['.', '.'] : List Char) ≠ [] ∧ '/' ∉ (['.', '.'] : List Char) := by simp
    by_cases hp : p = ['.', '.']
    · cases acc with
      | nil =>
        cases rooted with
        | true =>
          rw [resolveDots, if_pos hp, if_pos rfl] at hg
          exact resolveDots_ne true ps [] hps' (by simp) g hg
        | false =>
          rw [resolveDots, if_pos hp, if_neg (by simp)] at hg
          refine resolveDots_ne false ps [p] hps' ?_ g hg
          intro x hx
          rw [List.mem_singleton.mp hx, hp]
          exact hdd
      | cons q acc' =>
        by_cases hq : q = ['.', '.']
        · rw [resolveDots, if_pos hp, if_pos hq] at hg
          refine resolveDots_ne rooted ps (p :: q :: acc') hps' ?_ g hg
          intro x hx
          rcases List.mem_cons.mp hx with h1 | h2
          · rw [h1, hp]; exact hdd
          · exact hacc x h2
        · rw [resolveDots, if_pos hp, if_neg hq] at hg
          exact resolveDots_ne rooted ps acc' hps'
            (fun x hx => hacc x (List.mem_cons_of_mem q hx)) g hg
    · have hpbase : p ≠ [] ∧ '/' ∉ p := hps p (List.mem_cons_self p ps)
      cases acc with
      | nil =>
        rw [resolveDots, if_neg hp] at hg
        refine resolveDots_ne rooted ps [p] hps' ?_ g hg
        intro x hx
        rw [List.mem_singleton.mp hx]
        exact hpbase
      | cons q acc' =>
        rw [resolveDots, if_neg hp] at hg
        refine resolveDots_ne rooted ps (p :: q :: acc') hps' ?_ g hg
        intro x hx
        rcases List.mem_cons.mp hx with h1 | h2
        · exact h1 ▸ hpbase
        · exact hacc x h2

/-- Appending a non-dot element to the input appends it to the
resolution. -/
theorem resolveDots_append {c : List Char} (hc : c ≠ ['.', '.']) (rooted : Bool) :
    ∀ (ps : List (List Char)) (acc : List (List Char)),
      resolveDots rooted acc (ps ++ [c]) = resolveDots rooted acc ps ++ [c]
  | [], acc => by
    cases acc <;> simp [resolveDots, hc]
  | p :: ps, acc => by
    by_cases hp : p = ['.', '.']
    · cases acc with
      | nil =>
        cases rooted with
        | true =>
          rw [List.cons_append, resolveDots, if_pos hp, if_pos rfl]
          conv_rhs => rw [resolveDots, if_pos hp, if_pos rfl]
          exact resolveDots_append hc true ps []
        | false =>
          rw [List.cons_append, resolveDots, if_pos hp, if_neg (by simp)]
          conv_rhs => rw [resolveDots, if_pos hp, if_neg (by simp)]
          exact resolveDots_append hc false ps [p]
      | cons q acc' =>
        by_cases hq : q = ['.', '.']
        · rw [List.cons_append, resolveDots, if_pos hp, if_pos hq]
          conv_rhs => rw [resolveDots, if_pos hp, if_pos hq]
          exact resolveDots_append hc rooted ps (p :: q :: acc')
        · rw [List.cons_append, resolveDots, if_pos hp, if_neg hq]
          conv_rhs => rw [resolveDots, if_pos hp, if_neg hq]
          exact resolveDots_append hc rooted ps acc'
    · cases acc with
      | nil =>
        rw [List.cons_append, resolveDots, if_neg hp]
        conv_rhs => rw [resolveDots, if_neg hp]
        exact resolveDots_append hc rooted ps [p]
      | cons q acc' =>
        rw [List.cons_append, resolveDots, if_neg hp]
        conv_rhs => rw [resolveDots, if_neg hp]
        exact resolveDots_append hc rooted ps (p :: q :: acc')

/-- Segments of a path are non-empty, not `.`, and separator-free. -/
theorem segsOf_spec (cs : List Char) : ∀ g ∈ segsOf cs, g ≠ [] ∧ g ≠ ['.'] ∧ '/' ∉ g := by
  intro g hg
  rw [segsOf, List.mem_filter] at hg
  obtain ⟨hmem, hfil⟩ := hg
  have hns := splitChar_no_sep '/' cs g hmem
  simp only [decide_eq_true_eq] at hfil
  exact ⟨hfil.1, hfil.2, hns⟩

/-- The rooted form of `cleanL`: either the bare root or a `/` followed
by good segments, which are exactly the dot-resolved segments of the
input. -/
theorem cleanL_rooted_form (cs : List Char) (h : cs.head? = some '/') :
    cleanL cs = ['/'] ∨
      ∃ gs, gs ≠ [] ∧ (∀ g ∈ gs, goodSeg g) ∧
        gs = resolveDots true [] (segsOf cs) ∧ cleanL cs = '/' :: joinSegs gs := by
  have hne : cs ≠ [] := by rintro rfl; simp at h
  have hgood : ∀ g ∈ resolveDots true [] (segsOf cs), goodSeg g :=
    resolveDots_good (segsOf cs) [] (segsOf_spec cs) (by simp)
  rw [cleanL, if_neg hne, if_pos h]
  by_cases hb : joinSegs (resolveDots true [] (segsOf cs)) = []
  · rw [if_pos hb]
    exact Or.inl rfl
  · rw [if_neg hb]
    refine Or.inr ⟨resolveDots true [] (segsOf cs), ?_, hgood, rfl, rfl⟩
    intro h0
    rw [h0] at hb
    exact hb rfl

/-- Cleaning preserves rootedness. -/
theorem cleanL_head_rooted (cs : List Char) (h : cs.head? = some '/') :
    (cleanL cs).head? = some '/' := by
  rcases cleanL_rooted_form cs h with h1 | ⟨gs, _, _, _, h2⟩
  · rw [h1]; rfl
  · rw [h2]; rfl

/-- Cleaning preserves unrootedness. -/
theorem cleanL_head_unrooted (cs : List Char) (h : ¬ cs.head? = some '/') :
    (cleanL cs).head? ≠ some '/' := by
  by_cases hne : cs = []
  · subst hne
    rw [cleanL, if_pos rfl]
    simp
  · rw [cleanL, if_neg hne, if_neg h]
    cases hres : resolveDots false [] (segsOf cs) with
    | nil => simp [joinSegs, joinWith]
    | cons g gs =>
      have hg : g ≠ [] ∧ '/' ∉ g := by
        refine resolveDots_ne false (segsOf cs) []
          (fun x hx => ⟨(segsOf_spec cs x hx).1, (segsOf_spec cs x hx).2.2⟩)
          (by simp) g ?_
        rw [hres]
        exact List.mem_cons_self g gs
      rw [if_neg (joinSegs_ne_nil gs hg.1), joinSegs_head gs hg.1]
      cases g with
      | nil => exact absurd rfl hg.1
      | cons c g' =>
        have hcne : c ≠ '/' := fun hcc => hg.2 (hcc ▸ List.mem_cons_self c g')
        simpa using hcne


/-! ### Containment lemmas for `isPathWithinDir` -/

/-- Absoluteness is having `/` as the head character. -/
theorem isAbs_iff (s : String) : isAbs s = true ↔ s.data.head? = some '/' := by
  rw [isAbs, strStartsWith, show ("/" : String).data = ['/'] from rfl,
    List.isPrefixOf_iff_prefix]
  constructor
  · intro h
    obtain ⟨tl, htl⟩ := h
    rw [← htl]
    rfl
  · intro h
    obtain ⟨tl, htl⟩ := List.head?_eq_some_iff.mp h
    rw [htl]
    exact ⟨tl, rfl⟩

/-- The common-prefix stripper indeed strips a common prefix. -/
theorem dropCommon_spec : ∀ as bs : List (List Char),
    ∃ pre, as = pre ++ (dropCommon as bs).1 ∧ bs = pre ++ (dropCommon as bs).2
  | [], bs => ⟨[], rfl, rfl⟩
  | _ :: _, [] => ⟨[], rfl, rfl⟩
  | a :: as, b :: bs => by
    by_cases h : a = b
    · obtain ⟨pre, h1, h2⟩ := dropCommon_spec as bs
      refine ⟨a :: pre, ?_, ?_⟩
      · rw [dropCommon, if_pos h]
        simpa using h1
      · rw [dropCommon, if_pos h, h]
        simpa using h2
    · refine ⟨[], ?_, ?_⟩ <;> rw [dropCommon, if_neg h] <;> rfl

/-- A join headed by a `..` segment starts with `..`. -/
theorem dotdot_prefix (xs : List (List Char)) :
    strStartsWith ⟨joinSegs (['.', '.'] :: xs)⟩ ".." = true := by
  rw [strStartsWith, show (".." : String).data = ['.', '.'] from rfl,
    List.isPrefixOf_iff_prefix]
  show ['.', '.'] <+: joinSegs (['.', '.'] :: xs)
  cases xs with
  | nil => exact ⟨[], rfl⟩
  | cons y ys =>
    rw [joinSegs, joinWith, List.append_assoc]
    exact List.prefix_append _ _

/-- For a rooted path with a non-root clean form, the clean form and its
`Rel` elements decompose into good segments. -/
theorem relComps_clean (p : String) (hp : p.data.head? = some '/') (hr : clean p ≠ "/") :
    ∃ bs, bs ≠ [] ∧ (∀ g ∈ bs, goodSeg g) ∧
      (clean p).data = '/' :: joinSegs bs ∧ relComps (clean p) = [] :: bs := by
  rcases cleanL_rooted_form p.data hp with h1 | ⟨gs, hne, hgood, _, h2⟩
  · exact absurd (String.ext (show (clean p).data = ("/" : String).data from h1)) hr
  · have hd : (clean p).data = '/' :: joinSegs gs := h2
    refine ⟨gs, hne, hgood, hd, ?_⟩
    rw [relComps, if_neg ?emp, if_neg hr]
    case emp =>
      intro h0
      have h0' := congrArg String.data h0
      rw [hd] at h0'
      simp at h0'
    rw [hd, splitChar_cons_sep, show joinSegs gs = joinWith ['/'] gs from rfl,
      splitChar_joinWith '/' gs hne (fun g hg => (hgood g hg).2.2.2)]

/-- If `isPathWithinDir` accepts a target against an absolute, non-root
base directory, the cleaned target is the cleaned base or strictly below
it. -/
theorem within_of_isPathWithinDir (t d : String) (hd : isAbs d = true)
    (hroot : clean d ≠ "/") (h : isPathWithinDir t d = true) : withinDir t d = true := by
  rw [isPathWithinDir] at h
  cases hrel : rel d t with
  | none => rw [hrel] at h; simp at h
  | some r =>
    rw [hrel] at h
    simp only [Bool.and_eq_true, Bool.not_eq_true'] at h
    obtain ⟨hdd, _⟩ := h
    rw [rel] at hrel
    by_cases heq : clean t = clean d
    · rw [withinDir]
      simp [heq]
    · rw [if_neg heq] at hrel
      have hdData : d.data.head? = some '/' := (isAbs_iff d).mp hd
      have hcleanD : (clean d).data.head? = some '/' := cleanL_head_rooted d.data hdData
      have hDdot : clean d ≠ "." := by
        intro h0
        rw [h0] at hcleanD
        exact absurd hcleanD (by decide)
      have hBase : relBase d = clean d := by rw [relBase, if_neg hDdot]
      rw [hBase] at hrel
      have hAbsD : isAbs (clean d) = true := (isAbs_iff _).mpr hcleanD
      have hAbsT : isAbs (clean t) = true := by
        rcases Bool.eq_false_or_eq_true (isAbs (clean t)) with ht | hf
        · exact ht
        · rw [hAbsD, hf] at hrel
          simp at hrel
      rw [hAbsD, hAbsT, if_neg (by simp)] at hrel
      have hTData : (clean t).data.head? = some '/' := (isAbs_iff _).mp hAbsT
      obtain ⟨bs, hbsne, hbsgood, hdEq, hdComps⟩ := relComps_clean d hdData hroot
      by_cases hTroot : clean t = "/"
      · rw [hdComps, hTroot, show relComps "/" = [[]] from by decide, relFrom] at hrel
        rw [show dropCommon ([] :: bs) [[]] = (bs, []) from by
          rw [dropCommon, if_pos rfl]
          cases bs <;> rfl] at hrel
        cases bs with
        | nil => exact absurd rfl hbsne
        | cons b0 bs' =>
          have hb0 : b0 ≠ ['.', '.'] := (hbsgood b0 (List.mem_cons_self _ _)).2.2.1
          rw [if_neg (by simp [hb0]), if_neg (by simp)] at hrel
          injection hrel with hr'
          have hpfx : strStartsWith
              (⟨joinSegs (List.replicate (b0 :: bs').length ['.', '.'] ++ [])⟩ : String)
              ".." = true := by
            rw [List.append_nil, List.length_cons, List.replicate_succ]
            exact dotdot_prefix _
          rw [hr', hdd] at hpfx
          exact absurd hpfx (by simp)
      · have hTData0 : t.data.head? = some '/' := by
          by_contra h0
          exact cleanL_head_unrooted t.data h0 hTData
        obtain ⟨ts, htsne, htsgood, htEq, htComps⟩ := relComps_clean t hTData0 hTroot
        rw [hdComps, htComps, relFrom] at hrel
        rw [show dropCommon ([] :: bs) ([] :: ts) = dropCommon bs ts from by
          rw [dropCommon, if_pos rfl]] at hrel
        obtain ⟨pre, hpre1, hpre2⟩ := dropCommon_spec bs ts
        rcases hdc : dropCommon bs ts with ⟨bR, tR⟩
        rw [hdc] at hrel hpre1 hpre2
        simp only at hrel hpre1 hpre2
        cases bR with
        | cons b0 bR' =>
          have hb0mem : b0 ∈ bs := by
            rw [hpre1]
            exact List.mem_append_right _ (List.mem_cons_self _ _)
          have hb0 : b0 ≠ ['.', '.'] := (hbsgood b0 hb0mem).2.2.1
          rw [if_neg (by simp [hb0]), if_neg (by simp)] at hrel
          injection hrel with hr'
          have hpfx : strStartsWith
              (⟨joinSegs (List.replicate (b0 :: bR').length ['.', '.'] ++ tR)⟩ : String)
              ".." = true := by
            rw [List.length_cons, List.replicate_succ]
            exact dotdot_prefix _
          rw [hr', hdd] at hpfx
          exact absurd hpfx (by simp)
        | nil =>
          rw [List.append_nil] at hpre1
          subst hpre1
          have htRne : tR ≠ [] := by
            intro h0
            rw [h0, List.append_nil] at hpre2
            exact heq (String.ext (by rw [htEq, hdEq, hpre2]))
          have hwide : strStartsWith (clean t) (clean d ++ "/") = true := by
            rw [strStartsWith, String.data_append, show ("/" : String).data = ['/'] from rfl,
              List.isPrefixOf_iff_prefix, htEq, hdEq, hpre2,
              joinSegs_append bs hbsne htRne]
            refine ⟨joinSegs tR, ?_⟩
            simp
          rw [withinDir, hwide]
          simp

/-! ### Lemmas for the tool-cache path mapping -/

/-- Unfolding `clean` to the character level. -/
theorem clean_data (p : String) : (clean p).data = cleanL p.data := rfl

/-- Joining onto an absolute path yields an absolute path. -/
theorem isAbs_joinPath (d b : String) (hd : isAbs d = true) : isAbs (joinPath d b) = true := by
  have hdData : d.data.head? = some '/' := (isAbs_iff d).mp hd
  have hne : d ≠ "" := by
    intro h0
    rw [h0] at hdData
    simp at hdData
  rw [joinPath, if_neg hne]
  apply (isAbs_iff _).mpr
  rw [clean_data]
  apply cleanL_head_rooted
  rw [String.data_append, String.data_append]
  obtain ⟨tl, htl⟩ := List.head?_eq_some_iff.mp hdData
  rw [htl]
  rfl

/-- Cleaning a rooted path extended by one good final component appends
that component to the resolved segments. -/
theorem cleanL_append_comp (d : List Char) (hd : d.head? = some '/')
    {c : List Char} (hc1 : c ≠ []) (hc2 : c ≠ ['.']) (hc3 : c ≠ ['.', '.'])
    (hc4 : '/' ∉ c) :
    cleanL (d ++ '/' :: c) = '/' :: joinSegs (resolveDots true [] (segsOf d) ++ [c]) := by
  have hne : d ++ '/' :: c ≠ [] := by simp
  have hhead : (d ++ '/' :: c).head? = some '/' := by
    obtain ⟨tl, htl⟩ := List.head?_eq_some_iff.mp hd
    rw [htl]
    rfl
  rw [cleanL, if_neg hne, if_pos hhead]
  have hsegs : segsOf (d ++ '/' :: c) = segsOf d ++ [c] := by
    rw [segsOf, segsOf, splitChar_append_sep '/' hc4, List.filter_append]
    congr 1
    simp [hc1, hc2]
  rw [hsegs, resolveDots_append hc3 true]
  have hbody : joinSegs (resolveDots true [] (segsOf d) ++ [c]) ≠ [] := by
    cases hR : resolveDots true [] (segsOf d) with
    | nil => simpa [joinSegs, joinWith] using hc1
    | cons r rs =>
      rw [joinSegs_append (r :: rs) (by simp) (by simp)]
      simp
  rw [if_neg hbody]

/-- Joining distinct good final components onto the same absolute prefix
gives distinct paths. -/
theorem joinPath_comp_inj (d : String) {c₁ c₂ : List Char} (hd : isAbs d = true)
    (h₁ : c₁ ≠ [] ∧ c₁ ≠ ['.'] ∧ c₁ ≠ ['.', '.'] ∧ '/' ∉ c₁)
    (h₂ : c₂ ≠ [] ∧ c₂ ≠ ['.'] ∧ c₂ ≠ ['.', '.'] ∧ '/' ∉ c₂)
    (h : joinPath d ⟨c₁⟩ = joinPath d ⟨c₂⟩) : c₁ = c₂ := by
  have hdData : d.data.head? = some '/' := (isAbs_iff d).mp hd
  have hne : d ≠ "" := by
    intro h0
    rw [h0] at hdData
    simp at hdData
  rw [joinPath, if_neg hne, joinPath, if_neg hne] at h
  have h' := congrArg String.data h
  rw [clean_data, clean_data] at h'
  have hd1 : ((d ++ "/" ++ (⟨c₁⟩ : String)) : String).data = d.data ++ '/' :: c₁ := by
    rw [String.data_append, String.data_append]
    simp
  have hd2 : ((d ++ "/" ++ (⟨c₂⟩ : String)) : String).data = d.data ++ '/' :: c₂ := by
    rw [String.data_append, String.data_append]
    simp
  rw [hd1, hd2, cleanL_append_comp d.data hdData h₁.1 h₁.2.1 h₁.2.2.1 h₁.2.2.2,
    cleanL_append_comp d.data hdData h₂.1 h₂.2.1 h₂.2.2.1 h₂.2.2.2] at h'
  injection h' with _ htail
  cases hR : resolveDots true [] (segsOf d.data) with
  | nil =>
    rw [hR] at htail
    simpa [joinSegs, joinWith] using htail
  | cons r rs =>
    rw [hR, joinSegs_append (r :: rs) (by simp) (by simp),
      joinSegs_append (r :: rs) (by simp) (by simp)] at htail
    have h3 := List.append_cancel_left htail
    rw [show joinSegs [c₁] = c₁ from rfl, show joinSegs [c₂] = c₂ from rfl] at h3
    injection h3

/-- The separator never survives slash-to-dash replacement. -/
theorem slash_not_mem_replaceSlashDash (p : List Char) : '/' ∉ replaceSlashDash p := by
  intro h
  rw [replaceSlashDash] at h
  obtain ⟨c, _, hc⟩ := List.mem_map.mp h
  by_cases h' : c = '/'
  · rw [if_pos h'] at hc
    exact absurd hc (by decide)
  · rw [if_neg h'] at hc
    exact h' hc

/-- Slash-to-dash replacement is injective on dash-free inputs. -/
theorem replaceSlashDash_inj : ∀ (p q : List Char), '-' ∉ p → '-' ∉ q →
    replaceSlashDash p = replaceSlashDash q → p = q
  | [], [], _, _, _ => rfl
  | [], _ :: _, _, _, h => by simp [replaceSlashDash] at h
  | _ :: _, [], _, _, h => by simp [replaceSlashDash] at h
  | c :: p, d :: q, h1, h2, h => by
    simp only [replaceSlashDash, List.map_cons, List.cons.injEq] at h
    obtain ⟨hh, ht⟩ := h
    have hcd : c = d := by
      by_cases hc : c = '/'
      · by_cases hdq : d = '/'
        · rw [hc, hdq]
        · rw [if_pos hc, if_neg hdq] at hh
          exfalso
          apply h2
          rw [← hh]
          exact List.mem_cons_self _ _
      · by_cases hdq : d = '/'
        · rw [if_neg hc, if_pos hdq] at hh
          exfalso
          apply h1
          rw [hh]
          exact List.mem_cons_self _ _
        · rw [if_neg hc, if_neg hdq] at hh
          exact hh
    have htail : p = q :=
      replaceSlashDash_inj p q (fun hm => h1 (List.mem_cons_of_mem c hm))
        (fun hm => h2 (List.mem_cons_of_mem d hm)) ht
    rw [hcd, htail]

/-- Splitting two equal lists at a dash whose suffixes are dash-free
identifies prefixes and suffixes. -/
theorem prefix_dash_inj : ∀ (x₁ x₂ y₁ y₂ : List Char), '-' ∉ x₁ → '-' ∉ x₂ →
    x₁ ++ '-' :: y₁ = x₂ ++ '-' :: y₂ → x₁ = x₂ ∧ y₁ = y₂
  | [], [], y₁, y₂, _, _, h => by
    refine ⟨rfl, ?_⟩
    rw [List.nil_append, List.nil_append] at h
    injection h
  | [], c :: x₂, y₁, y₂, _, h2, h => by
    rw [List.nil_append, List.cons_append] at h
    injection h with hh _
    exfalso
    apply h2
    rw [hh]
    exact List.mem_cons_self _ _
  | c :: x₁, [], y₁, y₂, h1, _, h => by
    rw [List.cons_append, List.nil_append] at h
    injection h with hh _
    exfalso
    apply h1
    rw [← hh]
    exact List.mem_cons_self _ _
  | c :: x₁, d :: x₂, y₁, y₂, h1, h2, h => by
    rw [List.cons_append, List.cons_append] at h
    injection h with hh ht
    obtain ⟨e1, e2⟩ := prefix_dash_inj x₁ x₂ y₁ y₂
      (fun hm => h1 (List.mem_cons_of_mem c hm))
      (fun hm => h2 (List.mem_cons_of_mem d hm)) ht
    exact ⟨by rw [hh, e1], e2⟩

/-- Splitting at the last dash, when both versions are dash-free. -/
theorem append_dash_inj (a₁ a₂ v₁ v₂ : List Char) (h1 : '-' ∉ v₁) (h2 : '-' ∉ v₂)
    (h : a₁ ++ '-' :: v₁ = a₂ ++ '-' :: v₂) : a₁ = a₂ ∧ v₁ = v₂ := by
  have hrev := congrArg List.reverse h
  rw [List.reverse_append, List.reverse_append, List.reverse_cons, List.reverse_cons,
    List.append_assoc, List.append_assoc, List.singleton_append, List.singleton_append] at hrev
  obtain ⟨e1, e2⟩ := prefix_dash_inj v₁.reverse v₂.reverse a₁.reverse a₂.reverse
    (by simpa using h1) (by simpa using h2) hrev
  exact ⟨List.reverse_injective e2, List.reverse_injective e1⟩

/-- C9 counterexample: the tool-cache directory mapping is not injective:
the distinct pairs (`a/b`, `c`) and (`a`, `b-c`) map to the same
directory. -/
theorem toolPath_collision :
    ToolPath "/h" "a/b" "c" = ToolPath "/h" "a" "b-c" ∧
      (("a/b", "c") : String × String) ≠ ("a", "b-c") := by
  refine ⟨rfl, by decide⟩

/-- C9 (amended): `ToolPath` maps (pkg, version) to
`tools/<pkg-with-slashes-replaced-by-dash>-<version>`; the mapping is
injective on pairs whose package and version contain no dash and whose
version contains no slash, but distinct pairs can collide in general. -/
theorem toolPath_injective_when_dash_free (home p₁ v₁ p₂ v₂ : String)
    (hh : isAbs home = true)
    (hp₁ : '-' ∉ p₁.data) (hp₂ : '-' ∉ p₂.data)
    (hv₁ : '-' ∉ v₁.data) (hv₂ : '-' ∉ v₂.data)
    (hs₁ : '/' ∉ v₁.data) (hs₂ : '/' ∉ v₂.data)
    (heq : ToolPath home p₁ v₁ = ToolPath home p₂ v₂) : p₁ = p₂ ∧ v₁ = v₂ := by
  have habs : isAbs (ToolsDir home) = true := isAbs_joinPath _ _ (isAbs_joinPath _ _ hh)
  have hgood : ∀ (p v : String), '/' ∉ v.data →
      (replaceSlashDash p.data ++ '-' :: v.data) ≠ [] ∧
        (replaceSlashDash p.data ++ '-' :: v.data) ≠ ['.'] ∧
        (replaceSlashDash p.data ++ '-' :: v.data) ≠ ['.', '.'] ∧
        '/' ∉ (replaceSlashDash p.data ++ '-' :: v.data) := by
    intro p v hv
    have hdash : '-' ∈ replaceSlashDash p.data ++ '-' :: v.data :=
      List.mem_append_right _ (List.mem_cons_self _ _)
    refine ⟨by simp, ?_, ?_, ?_⟩
    · intro h0
      rw [h0] at hdash
      exact absurd hdash (by decide)
    · intro h0
      rw [h0] at hdash
      exact absurd hdash (by decide)
    · intro h0
      rcases List.mem_append.mp h0 with hm | hm
      · exact slash_not_mem_replaceSlashDash p.data hm
      · rcases List.mem_cons.mp hm with hm1 | hm2
        · exact absurd hm1 (by decide)
        · exact hv hm2
  rw [ToolPath, ToolPath] at heq
  have hcomp := joinPath_comp_inj (ToolsDir home) habs (hgood p₁ v₁ hs₁) (hgood p₂ v₂ hs₂) heq
  obtain ⟨e1, e2⟩ := append_dash_inj _ _ _ _ hv₁ hv₂ hcomp
  exact ⟨String.ext (replaceSlashDash_inj p₁.data p₂.data hp₁ hp₂ e1), String.ext e2⟩

/-- C9 witness. -/
theorem toolPath_injective_when_dash_free_witness :
    ("a/b" : String) = "a/b" ∧ ("1.0" : String) = "1.0" :=
  toolPath_injective_when_dash_free "/h" "a/b" "1.0" "a/b" "1.0" rfl (by decide) (by decide)
    (by decide) (by decide) (by decide) (by decide) rfl

/-- C1 counterexample: the common tar entry `.` is accepted and its write
target is the destination directory itself, which is not strictly inside
the destination. -/
theorem extractTarGz_dot_entry_not_strict :
    extractTarGz "/dest" [⟨".", TarType.dir, ""⟩] = Except.ok ["/dest"] ∧
      strictlyInsideDir "/dest" "/dest" = false ∧ clean "/dest" = "/dest" := by
  refine ⟨rfl, rfl, rfl⟩

/-- C1 (amended): for an absolute, non-root destination, every write
target the extraction performs — before or after an error stops the
loop — is inside the destination directory: its cleaned path equals the
cleaned destination or lies strictly below it. An entry whose relative
path from the destination starts with `..` or is absolute (or a symlink
whose resolved target does) is rejected with an error before its write. -/
theorem extractTarGz_writes_stay_within (destDir : String) (entries : List TarHeader)
    (habs : isAbs destDir = true) (hroot : clean destDir ≠ "/") :
    (∀ w ∈ (extractEntries destDir entries).1, withinDir w destDir = true) ∧
      (∀ ws, extractTarGz destDir entries = Except.ok ws →
        ∀ w ∈ ws, withinDir w destDir = true) := by
  have main : ∀ es : List TarHeader,
      ∀ w ∈ (extractEntries destDir es).1, withinDir w destDir = true := by
    intro es
    induction es with
    | nil => intro w hw; simp [extractEntries] at hw
    | cons hd rest ih =>
      obtain ⟨name, tf, link⟩ := hd
      intro w hw
      cases tf with
      | dir =>
        simp only [extractEntries] at hw
        split at hw
        · simp at hw
        · rcases List.mem_cons.mp hw with h1 | h2
          · subst h1
            rename_i hguard
            refine within_of_isPathWithinDir _ _ habs hroot ?_
            simpa using hguard
          · exact ih w h2
      | reg =>
        simp only [extractEntries] at hw
        split at hw
        · simp at hw
        · rcases List.mem_cons.mp hw with h1 | h2
          · subst h1
            rename_i hguard
            refine within_of_isPathWithinDir _ _ habs hroot ?_
            simpa using hguard
          · exact ih w h2
      | symlink =>
        simp only [extractEntries] at hw
        split at hw
        · simp at hw
        · split at hw
          · simp at hw
          · rcases List.mem_cons.mp hw with h1 | h2
            · subst h1
              rename_i hg1 hg2
              refine within_of_isPathWithinDir _ _ habs hroot ?_
              simpa using hg1
            · exact ih w h2
      | other =>
        simp only [extractEntries] at hw
        split at hw
        · simp at hw
        · exact ih w hw
  refine ⟨main entries, ?_⟩
  intro ws hok w hw
  rw [extractTarGz] at hok
  cases hE : extractEntries destDir entries with
  | mk ws' err =>
    rw [hE] at hok
    cases err with
    | none =>
      simp only at hok
      injection hok with hok'
      refine main entries w ?_
      rw [hE]
      simpa [hok'] using hw
    | some e => simp at hok

/-- C1 witness. -/
theorem extractTarGz_writes_stay_within_witness :
    withinDir "/d/bin/php" "/d" = true :=
  (extractTarGz_writes_stay_within "/d" [⟨"bin/php", TarType.reg, ""⟩] rfl (by decide)).1
    "/d/bin/php" (by decide)

/-- C2: the exit code observed by the caller equals the child's exit code
(and a non-zero child exit is not a runner error), is 1 exactly on a
runner failure, and is 0 on success. -/
theorem exit_code_propagation (c : Int) (m : String) :
    observedExitCode (CmdOutcome.exited c) = c ∧
      (BuildResult (CmdOutcome.exited c)).2 = none ∧
      observedExitCode CmdOutcome.success = 0 ∧
      observedExitCode (CmdOutcome.failed m) = 1 := by
  refine ⟨rfl, rfl, rfl, rfl⟩

/-- C3 counterexample: the environment `InstallDeps` hands to
`composer install` is the full parent environment plus `COMPOSER_HOME`,
not the safelist-filtered environment: a variable outside the safelist
(`SECRET_TOKEN`) reaches the install child although the filter would have
removed it. -/
theorem installDeps_env_not_filtered :
    installEnv ["SECRET_TOKEN=x", "PATH=/bin"] "/d" ≠
        FilterEnv ["SECRET_TOKEN=x", "PATH=/bin"] []
          ++ ["COMPOSER_HOME=" ++ joinPath "/d" ".composer"] ∧
      "SECRET_TOKEN=x" ∈ installEnv ["SECRET_TOKEN=x", "PATH=/bin"] "/d" ∧
      "SECRET_TOKEN=x" ∉ FilterEnv ["SECRET_TOKEN=x", "PATH=/bin"] [] := by
  refine ⟨by decide, by decide, by decide⟩

/-- C3 (amended): the install child's environment is exactly the parent
environment with the single entry `COMPOSER_HOME=<dest>/.composer`
appended; every parent variable, safelisted or not, reaches the child. -/
theorem installDeps_env_is_environ_plus_composer_home
    (environ : List String) (destDir v : String) :
    v ∈ installEnv environ destDir ↔
      v ∈ environ ∨ v = "COMPOSER_HOME=" ++ joinPath destDir ".composer" := by
  simp [installEnv]

/-- C4: a host is allowed iff the filter is in allow-all mode, or its
lowercased, port-stripped form equals an exact entry, or that form ends
with a wildcard suffix; with allowlist `*.example.com`,
`api.example.com` is allowed and `example.com` is not. -/
theorem isAllowed_spec (f : DomainFilter) (host : String) :
    (IsAllowed f host = true ↔
      f.allowAll = true ∨ toLowerStr (stripPort host) ∈ f.allowedDomains ∨
        ∃ s ∈ f.wildcardDomains, strEndsWith (toLowerStr (stripPort host)) s = true) ∧
      IsAllowed (AddAllowed NewDomainFilter "*.example.com") "api.example.com" = true ∧
      IsAllowed (AddAllowed NewDomainFilter "*.example.com") "example.com" = false := by
  refine ⟨?_, by decide, by decide⟩
  unfold IsAllowed
  by_cases h : f.allowAll
  · simp [h]
  · simp only [h, Bool.false_eq_true, if_false, Bool.or_eq_true, List.any_eq_true,
      beq_iff_eq, false_or]
    constructor
    · rintro (⟨a, ha, rfl⟩ | hw)
      · exact Or.inl ha
      · exact Or.inr hw
    · rintro (ha | hw)
      · exact Or.inl ⟨_, ha, rfl⟩
      · exact Or.inr hw

/-- Helper: splitting on `||` leaves a pipe-free string whole. -/
theorem splitPipes_eq_single : ∀ {cs : List Char}, '|' ∉ cs → splitPipes cs = [cs]
  | [], _ => rfl
  | [_], _ => rfl
  | c :: d :: rest, h => by
    have hc : c ≠ '|' := by simp_all [eq_comm]
    have hd : '|' ∉ d :: rest := by simp_all
    rw [splitPipes, if_neg (by simp [hc]), splitPipes_eq_single hd]

/-- Helper: replacing single pipes is the identity on pipe-free strings. -/
theorem replacePipe_eq_self : ∀ {cs : List Char}, '|' ∉ cs → replacePipe cs = cs
  | [], _ => rfl
  | c :: rest, h => by
    have hc : c ≠ '|' := by simp_all [eq_comm]
    have hrest : '|' ∉ rest := by simp_all
    rw [replacePipe, if_neg hc, replacePipe_eq_self hrest]

/-- C8 counterexample: `NormalizeConstraint` is not idempotent: on
`^7.4|^8.0` one application gives `^7.4 || ^8.0`, a second application
gives `^7.4  ||  ^8.0` (the whitespace around `||` doubles). -/
theorem normalizeConstraint_not_idempotent :
    NormalizeConstraint (NormalizeConstraint "^7.4|^8.0") ≠
        NormalizeConstraint "^7.4|^8.0" ∧
      NormalizeConstraint "^7.4|^8.0" = "^7.4 || ^8.0" ∧
      NormalizeConstraint (NormalizeConstraint "^7.4|^8.0") = "^7.4  ||  ^8.0" := by
  refine ⟨by decide, by decide, by decide⟩

/-- C8 (amended): `NormalizeConstraint` is the identity, hence
idempotent, on constraints containing no pipe character; a constraint
containing a pipe is changed again by a second application. -/
theorem normalizeConstraint_idempotent_on_pipe_free (s : String) (h : '|' ∉ s.data) :
    NormalizeConstraint s = s ∧
      NormalizeConstraint (NormalizeConstraint s) = NormalizeConstraint s := by
  have hid : NormalizeConstraint s = s := by
    unfold NormalizeConstraint
    rw [splitPipes_eq_single h]
    simp only [List.map_cons, List.map_nil, replacePipe_eq_self h, joinWith]
  refine ⟨hid, ?_⟩
  rw [hid]
  exact hid

/-- C8 witness. -/
theorem normalizeConstraint_idempotent_on_pipe_free_witness :
    NormalizeConstraint ">=8.1" = ">=8.1" ∧
      NormalizeConstraint (NormalizeConstraint ">=8.1") = NormalizeConstraint ">=8.1" :=
  normalizeConstraint_idempotent_on_pipe_free ">=8.1" (by decide)

/-- Helper: `AddAllowed` never flips allow-all mode. -/
theorem addAllowed_allowAll (f : DomainFilter) (d : String) :
    (AddAllowed f d).allowAll = f.allowAll := by
  simp only [AddAllowed]
  split
  · rfl
  · split <;> rfl

/-- Helper: folding `AddAllowed` over any host list preserves allow-all
mode. -/
theorem foldl_addAllowed_allowAll (hosts : List String) :
    ∀ f : DomainFilter, (hosts.foldl AddAllowed f).allowAll = f.allowAll := by
  induction hosts with
  | nil => intro f; rfl
  | cons h rest ih => intro f; rw [List.foldl_cons, ih, addAllowed_allowAll]

/-- C10: when the proxy manager is configured with an empty allowed-hosts
list the filter is in allow-all mode and every host is allowed; with a
non-empty list the filter stays deny-by-default (allow-all off). -/
theorem emptyAllowedHosts_allow_everything (hosts : List String) (h : String) :
    (hosts = [] → IsAllowed (buildManagerFilter hosts) h = true) ∧
      (hosts ≠ [] → (buildManagerFilter hosts).allowAll = false) := by
  constructor
  · intro he
    subst he
    rfl
  · intro hne
    unfold buildManagerFilter
    rw [if_neg hne, foldl_addAllowed_allowAll]
    rfl

/-- C10 witness. -/
theorem emptyAllowedHosts_allow_everything_witness :
    IsAllowed (buildManagerFilter []) "any.host.example:443" = true ∧
      (buildManagerFilter ["example.com"]).allowAll = false :=
  ⟨(emptyAllowedHosts_allow_everything [] "any.host.example:443").1 rfl,
    (emptyAllowedHosts_allow_everything ["example.com"] "x").2 (by decide)⟩

/-- Helper: the first match in a descending-sorted list is the greatest
match. -/
theorem find?_first_max {α : Type} [LinearOrder α] (check : α → Bool) :
    ∀ l : List α, l.Pairwise (fun a b => b ≤ a) → ∀ v, l.find? check = some v →
      ∀ w ∈ l, check w = true → w ≤ v
  | [], _, v, hfind => by simp at hfind
  | a :: l, hp, v, hfind => by
    intro w hw hcw
    by_cases hca : check a = true
    · rw [List.find?_cons_of_pos _ hca] at hfind
      injection hfind with hva
      rcases List.mem_cons.mp hw with h1 | h2
      · rw [h1, ← hva]
      · rw [← hva]
        exact (List.pairwise_cons.mp hp).1 w h2
    · rw [List.find?_cons_of_neg _ hca] at hfind
      rcases List.mem_cons.mp hw with h1 | h2
      · rw [h1] at hcw
        exact absurd hcw hca
      · exact find?_first_max check l (List.pairwise_cons.mp hp).2 v hfind w h2 hcw

/-- C5: on a descending-sorted tier list, a successful resolution's
version satisfies the (normalised) constraint and is the greatest version
of the chosen tier that does; when no version satisfies it,
`MatchingVersion` returns the error naming the constraint. -/
theorem matchingVersion_resolve_greatest {α : Type} [LinearOrder α]
    (verStr : α → String) (parse : String → Option (α → Bool)) (home : String)
    (existsFn : String → Bool) (idx : Index α) (constraint : String)
    (extensions : List String) (check : α → Bool) (r : Resolution α)
    (hparse : parse (NormalizeConstraint constraint) = some check)
    (hsortedC : idx.CommonVersions.Pairwise (fun a b => b ≤ a))
    (hsortedB : idx.BulkVersions.Pairwise (fun a b => b ≤ a))
    (hc : constraint ≠ "")
    (hres : Resolve verStr parse home existsFn idx constraint extensions = Except.ok r) :
    check r.version = true ∧
      (∀ w ∈ (if r.tier = "bulk" then idx.BulkVersions else idx.CommonVersions),
        check w = true → w ≤ r.version) ∧
      (∀ versions : List α, (∀ v ∈ versions, check v = false) →
        MatchingVersion parse versions constraint =
          Except.error ("no PHP version satisfies '" ++ constraint ++ "'")) := by
  have herr : ∀ versions : List α, (∀ v ∈ versions, check v = false) →
      MatchingVersion parse versions constraint =
        Except.error ("no PHP version satisfies '" ++ constraint ++ "'") := by
    intro versions hall
    rw [MatchingVersion]
    split
    · next heq =>
        rw [hparse] at heq
        exact absurd heq (by simp)
    · next check' heq =>
        rw [hparse] at heq
        injection heq with heq'
        subst heq'
        split
        · next v hfind =>
            have hcv := List.find?_some hfind
            have hv := List.mem_of_find?_eq_some hfind
            rw [hall v hv] at hcv
            exact absurd hcv (by simp)
        · next hfind => rfl
  rw [Resolve] at hres
  split at hres
  · simp at hres
  · next tier hRT =>
    rw [if_neg hc] at hres
    split at hres
    · simp at hres
    · next version heq =>
      simp only [Except.ok.injEq] at hres
      subst hres
      rw [MatchingVersion] at heq
      split at heq
      · next hpe =>
          rw [hparse] at hpe
          exact absurd hpe (by simp)
      · next check' hpe =>
          rw [hparse] at hpe
          injection hpe with hpe'
          subst hpe'
          split at heq
          · next v hfind =>
              simp only [Except.ok.injEq] at heq
              subst heq
              have hsorted : (if tier = "bulk" then idx.BulkVersions
                  else idx.CommonVersions).Pairwise (fun a b => b ≤ a) := by
                by_cases ht : tier = "bulk"
                · rw [if_pos ht]; exact hsortedB
                · rw [if_neg ht]; exact hsortedC
              refine ⟨List.find?_some hfind, ?_, herr⟩
              intro w hw hcw
              exact find?_first_max check _ hsorted _ hfind w hw hcw
          · next hfind => simp at heq

/-- C5 witness. -/
theorem matchingVersion_resolve_greatest_witness :
    MatchingVersion (fun _ => some (fun v => decide (v ≤ 840))) [900] "x" =
      Except.error ("no PHP version satisfies '" ++ "x" ++ "'") :=
  (matchingVersion_resolve_greatest (fun _ => "v")
      (fun _ => some (fun v => decide (v ≤ 840))) "/h" (fun _ => false)
      (⟨[850, 840, 830], [], [], []⟩ : Index Nat) "x" [] (fun v => decide (v ≤ 840))
      ⟨840, "common", PHPPath "/h" "v" "common", false⟩ rfl (by decide) (by decide)
      (by decide) rfl).2.2 [900] (by decide)

/-- Helper: sorting strings is invariant under permutation. -/
theorem sortStrings_eq_of_perm (l₁ l₂ : List String) (h : l₁.Perm l₂) :
    sortStrings l₁ = sortStrings l₂ := by
  have htrans : ∀ a b c : String, (decide (a ≤ b)) = true → (decide (b ≤ c)) = true →
      (decide (a ≤ c)) = true := by
    intro a b c hab hbc
    simp only [decide_eq_true_eq] at hab hbc ⊢
    exact le_trans hab hbc
  have htotal : ∀ a b : String, ((decide (a ≤ b)) || (decide (b ≤ a))) = true := by
    intro a b
    simpa using le_total a b
  apply List.eq_of_perm_of_sorted (r := (· ≤ · : String → String → Prop))
  · exact (List.mergeSort_perm l₁ _).trans (h.trans (List.mergeSort_perm l₂ _).symm)
  · exact (List.sorted_mergeSort htrans htotal l₁).imp (by simp)
  · exact (List.sorted_mergeSort htrans htotal l₂).imp (by simp)

/-- C6: the dependency-cache key hashes the lowercased, sorted,
newline-joined requirement strings, so two package lists equal as
multisets after lowercasing get the same key, whatever hash function is
plugged in for SHA-256. -/
theorem depsHash_perm_invariant (f : String → String) (P₁ P₂ : List String)
    (h : (P₁.map toLowerStr).Perm (P₂.map toLowerStr)) :
    DepsHash f P₁ = DepsHash f P₂ := by
  rw [DepsHash, DepsHash, sortStrings_eq_of_perm _ _ h]

/-- C6 witness: reordering and re-casing the requirements leaves the key
unchanged. -/
theorem depsHash_perm_invariant_witness :
    DepsHash id ["B/x:^1.0", "a/y"] = DepsHash id ["a/y", "b/X:^1.0"] :=
  depsHash_perm_invariant id ["B/x:^1.0", "a/y"] ["a/y", "b/X:^1.0"] (by decide)

/-- Helper: a line list without the marker makes the scan fail. -/
theorem findAfterMarker_eq_none :
    ∀ ls : List String, (∀ l ∈ ls, trimSpaceStr l ≠ "// phpx") → findAfterMarker ls = none
  | [], _ => rfl
  | l :: rest, h => by
    rw [findAfterMarker, if_neg (h l (List.mem_cons_self _ _)),
      findAfterMarker_eq_none rest (fun x hx => h x (List.mem_cons_of_mem l hx))]

/-- C7: the metadata parser returns the empty record without error when
no line's trimmed form is the `// phpx` marker, returns the empty record
when the marker's comment body is empty, and errors exactly when the
collected body fails to decode (returning the decoder's error). -/
theorem metadata_parse_spec (d : String → Except String Metadata) (content : String) :
    ((∀ l ∈ linesOf content, trimSpaceStr l ≠ "// phpx") →
        Parse d content = Except.ok emptyMetadata) ∧
      (∀ rest, findAfterMarker (linesOf content) = some rest → collectToml rest = [] →
        Parse d content = Except.ok emptyMetadata) ∧
      (∀ e, Parse d content = Except.error e ↔
        ∃ rest, findAfterMarker (linesOf content) = some rest ∧ collectToml rest ≠ [] ∧
          d (joinLines (collectToml rest)) = Except.error e) := by
  refine ⟨?_, ?_, ?_⟩
  · intro hno
    rw [Parse, findAfterMarker_eq_none _ hno]
  · intro rest hfind hempty
    rw [Parse, hfind]
    simp [hempty]
  · intro e
    constructor
    · intro herr
      rw [Parse] at herr
      split at herr
      · simp at herr
      · next rest hfind =>
        by_cases hemp : collectToml rest = []
        · rw [if_pos hemp] at herr
          simp at herr
        · rw [if_neg hemp] at herr
          exact ⟨rest, hfind, hemp, herr⟩
    · rintro ⟨rest, hfind, hne, hd⟩
      rw [Parse, hfind]
      simp [if_neg hne, hd]

/-- C7 witness. -/
theorem metadata_parse_spec_witness :
    Parse (fun _ => Except.error "boom") "<?php\necho 1;" = Except.ok emptyMetadata :=
  (metadata_parse_spec (fun _ => Except.error "boom") "<?php\necho 1;").1 (by decide)

end Phpx
